import Mathlib

/-!
Verification of the `gogit` repository, a thin wrapper around the `git`
command-line tool (`git.go`).

Strings manipulated by the parsers are modelled as `List Char` (the parsed
outputs are ASCII, so Go's byte indexing coincides with character indexing);
file names handed to the filesystem are modelled as Lean `String`s.  External
effects are made explicit parameters:

* the filesystem's `os.Stat` becomes a function `Stat : String → StatResult`;
* a finished subprocess invocation (`runGit`) becomes a `RunResult` record
  holding the captured stdout, stderr and the optional process error;
* Go's `map` iteration, whose order is unspecified, becomes an explicit list
  of entries quantified over the permutations of the source's table.
-/

namespace Gogit

/-- Convenience: the character list underlying a Lean string literal. -/
def str (s : String) : List Char := s.data

instance {e a : Type} [DecidableEq e] [DecidableEq a] : DecidableEq (Except e a) := fun x y =>
  match x, y with
  | Except.error u, Except.error v =>
    if h : u = v then isTrue (by rw [h]) else isFalse (fun hh => h (by injection hh))
  | Except.ok u, Except.ok v =>
    if h : u = v then isTrue (by rw [h]) else isFalse (fun hh => h (by injection hh))
  | Except.error _, Except.ok _ => isFalse (fun hh => by injection hh)
  | Except.ok _, Except.error _ => isFalse (fun hh => by injection hh)

/-- Repository handle (`type Repo struct { Path string }`). -/
structure Repo where
  Path : String
deriving DecidableEq

/-- Object identifier (`type Oid string`); parsed outputs are `List Char`. -/
abbrev Oid := List Char

/-- Result of a finished `runGit` invocation: captured stdout and stderr and
the error returned by `cmd.Run` (`none` on success). -/
structure RunResult where
  stdout : List Char
  stderr : List Char
  err : Option String
deriving DecidableEq

/-- `type StatusFlag int` with its seven constants. -/
inductive StatusFlag
  | unmodified
  | modified
  | added
  | deleted
  | renamed
  | copied
  | unmergedUpdated
deriving DecidableEq, Repr

/-- `type status struct` of `git.go`: one parsed porcelain status entry. -/
structure Status where
  OldPath : List Char
  NewPath : List Char
  IndexStatus : StatusFlag
  WorkTreeStatus : StatusFlag
deriving DecidableEq, Repr

/-- `statusFlagForChar` of `git.go`: the fixed switch from a one-character
porcelain status code to a `StatusFlag`; an unknown character produces the
error message naming it. -/
def statusFlagForChar (c : Char) : Except String StatusFlag :=
  if c = ' ' then Except.ok StatusFlag.unmodified
  else if c = 'M' then Except.ok StatusFlag.modified
  else if c = 'A' then Except.ok StatusFlag.added
  else if c = 'D' then Except.ok StatusFlag.deleted
  else if c = 'R' then Except.ok StatusFlag.renamed
  else if c = 'C' then Except.ok StatusFlag.copied
  else if c = 'U' then Except.ok StatusFlag.unmergedUpdated
  else Except.error ("Unknown status flag `" ++ String.singleton c ++ "`")

/-- First occurrence of `sep` in `s`: `some (a, b)` with `s = a ++ sep ++ b`
and the occurrence earliest, `none` when `sep` does not occur.  This is the
core of Go's `strings.SplitN(s, sep, 2)` for non-empty `sep`. -/
def splitOnce (sep : List Char) : List Char → Option (List Char × List Char)
  | [] => none
  | c :: rest =>
    if List.isPrefixOf sep (c :: rest) then some ([], List.drop sep.length (c :: rest))
    else
      match splitOnce sep rest with
      | some (a, b) => some (c :: a, b)
      | none => none

/-- Go's `strings.SplitN(s, sep, 2)` for non-empty `sep`: split at the first
occurrence of `sep` into two parts, or return the whole string as one part. -/
def splitN2 (sep s : List Char) : List (List Char) :=
  match splitOnce sep s with
  | some (a, b) => [a, b]
  | none => [s]

/-- The literal rename/copy separator `" -> "` of the porcelain format. -/
def arrowSep : List Char := str " -> "

/-- One iteration of the `parseStatus` loop body on a (non-empty) line:
reject lines shorter than 4 characters, map the characters at positions 0
(`line[0]`) and 1 (`line[1]`) through `statusFlagForChar`, and split the
payload from position 3 onward (`line[3:]`) on `" -> "` into old and
(optional) new path.  The `getD` defaults are unreachable under the length
guard. -/
def parseStatusLine (line : List Char) : Except String Status :=
  if line.length < 4 then Except.error "Status line too short"
  else
    match statusFlagForChar (line.getD 0 ' ') with
    | Except.error e => Except.error e
    | Except.ok indexStatus =>
      match statusFlagForChar (line.getD 1 ' ') with
      | Except.error e => Except.error e
      | Except.ok workTreeStatus =>
        let paths := splitN2 arrowSep (line.drop 3)
        let newPath : List Char :=
          match paths with
          | [_, p1] => p1
          | _ => []
        Except.ok
          { OldPath := paths.headD [], NewPath := newPath,
            IndexStatus := indexStatus, WorkTreeStatus := workTreeStatus }

/-- The `parseStatus` loop over the already-split lines: empty lines are
skipped, the first malformed line aborts the whole parse with its error. -/
def parseStatusLines : List (List Char) → Except String (List Status)
  | [] => Except.ok []
  | line :: rest =>
    if line = [] then parseStatusLines rest
    else
      match parseStatusLine line with
      | Except.error e => Except.error e
      | Except.ok s =>
        match parseStatusLines rest with
        | Except.error e => Except.error e
        | Except.ok ss => Except.ok (s :: ss)

/-- Go's `strings.Split(s, "\n")`: split on every newline; the empty string
yields one empty piece, a trailing newline yields a trailing empty piece. -/
def splitLines (s : List Char) : List (List Char) :=
  match s with
  | [] => [[]]
  | c :: rest =>
    if c = '\n' then [] :: splitLines rest
    else
      match splitLines rest with
      | [] => [[c]]
      | h :: t => (c :: h) :: t

/-- `parseStatus` of `git.go`: split the captured output on newlines and run
the per-line parser, skipping empty lines. -/
def parseStatus (output : List Char) : Except String (List Status) :=
  parseStatusLines (splitLines output)

/-- Outcome of `os.Stat` on one path, as `hasGitFile` distinguishes it:
success, the `os.IsNotExist` error, or any other filesystem error. -/
inductive StatResult
  | found
  | notExist
  | statError (e : String)
deriving DecidableEq

/-- The filesystem as seen through `os.Stat`. -/
abbrev Stat := String → StatResult

/-- `gitFilePath` of `git.go`: `path.Join(r.Path, ".git", name)`.  The
lexical cleaning of `path.Join` is not modelled; the paths involved here
contain no empty or dot segments, for which `Join` is plain `/`-joining. -/
def gitFilePath (r : Repo) (name : String) : String :=
  r.Path ++ "/.git/" ++ name

/-- `HasGitFile` of `git.go`: `os.Stat` the file under `.git`; `IsNotExist`
is the normal negative answer, any other error is propagated, otherwise the
file exists. -/
def HasGitFile (fs : Stat) (r : Repo) (name : String) : Except String Bool :=
  match fs (gitFilePath r name) with
  | StatResult.notExist => Except.ok false
  | StatResult.statError e => Except.error e
  | StatResult.found => Except.ok true

/-- `type State int` with its ten constants. -/
inductive State
  | none
  | rebaseInteractive
  | rebaseMerge
  | rebase
  | applyMailbox
  | applyMailboxOrRebase
  | merge
  | revert
  | cherryPick
  | bisect
deriving DecidableEq, Repr

/-- The entries of the `stateFiles` map of `git.go`, in source-literal order.
Go iterates maps in an unspecified order, so `State()` is modelled by
`stateForOrder` applied to an arbitrary permutation of this list. -/
def stateFilesList : List (String × State) :=
  [("rebase-merge/interactive", State.rebaseInteractive),
   ("rebase-merge", State.rebaseMerge),
   ("rebase-apply/rebasing", State.rebase),
   ("rebase-apply/applying", State.applyMailbox),
   ("rebase-apply", State.applyMailboxOrRebase),
   ("MERGE_HEAD", State.merge),
   ("REVERT_HEAD", State.revert),
   ("CHERRY_PICK_HEAD", State.cherryPick),
   ("BISECT_LOG", State.bisect)]

/-- The loop of `State()` of `git.go`, run over one concrete iteration order
of the `stateFiles` map: return the state of the first marker that exists,
propagate any `HasGitFile` error, and fall through to `State.none`. -/
def stateForOrder (fs : Stat) (r : Repo) : List (String × State) → Except String State
  | [] => Except.ok State.none
  | (file, st) :: rest =>
    match HasGitFile fs r file with
    | Except.error e => Except.error e
    | Except.ok true => Except.ok st
    | Except.ok false => stateForOrder fs r rest

/-- `CherryPick` of `git.go`, with the two external calls made explicit: the
finished `git cherry-pick` invocation (`run`) and the answer `r.State()`
would give (`stateRes`).  Returns the `(bool, error)` pair of the Go
function together with the list of strings written to the process's stderr
by `CherryPick`'s own diagnostic passthrough. -/
def CherryPick (run : RunResult) (stateRes : Except String State) :
    (Bool × Option String) × List (List Char) :=
  match run.err with
  | Option.none => ((true, Option.none), [])
  | some e =>
    match stateRes with
    | Except.error _ => ((false, some e), [run.stderr])
    | Except.ok st =>
      if st = State.cherryPick then ((false, Option.none), [])
      else ((false, some e), [])

/-- Go's `unicode.IsSpace` on the characters `strings.Fields` can meet in
`git` output (the ASCII white space plus NEL and NBSP, the only Latin-1
white space Go recognizes). -/
def unicodeIsSpace (c : Char) : Bool :=
  c = ' ' || c = '\t' || c = '\n' || c = '\x0b' || c = '\x0c' || c = '\r' ||
  c = '\x85' || c = '\xa0'

/-- Accumulator version of `strings.Fields`: `acc` holds the reversed
current token. -/
def fieldsAux : List Char → List Char → List (List Char)
  | acc, [] => if acc = [] then [] else [acc.reverse]
  | acc, c :: rest =>
    if unicodeIsSpace c then
      if acc = [] then fieldsAux [] rest
      else acc.reverse :: fieldsAux [] rest
    else fieldsAux (c :: acc) rest

/-- Go's `strings.Fields`: the maximal runs of non-white-space characters. -/
def fields (s : List Char) : List (List Char) :=
  fieldsAux [] s

/-- `Parents` of `git.go`, with the finished `git show --format=format:%P`
invocation made explicit: on process error return it, otherwise split the
raw parent-hash line into white-space-separated object identifiers. -/
def Parents (run : RunResult) : Except String (List Oid) :=
  match run.err with
  | some e => Except.error e
  | Option.none => Except.ok (fields run.stdout)

/-- Test repository handle used by the concrete state-detection runs. -/
def repoT : Repo := ⟨"/repo"⟩

/-- Filesystem in which only the `MERGE_HEAD` marker exists. -/
def fsOnlyMerge : Stat := fun p =>
  if p = "/repo/.git/MERGE_HEAD" then StatResult.found else StatResult.notExist

/-- Filesystem in which no marker exists. -/
def fsNoMarkers : Stat := fun _ => StatResult.notExist

/-- Filesystem in which the `MERGE_HEAD` and `CHERRY_PICK_HEAD` markers
exist simultaneously. -/
def fsMergeAndCherry : Stat := fun p =>
  if p = "/repo/.git/MERGE_HEAD" || p = "/repo/.git/CHERRY_PICK_HEAD" then StatResult.found
  else StatResult.notExist

/-- Filesystem in which every existence check fails with a non-not-found
error. -/
def fsStatFails : Stat := fun _ => StatResult.statError "permission denied"

/-- A finished conflicting `git cherry-pick` invocation. -/
def runConflict : RunResult :=
  ⟨[], str "error: could not apply deadbeef", some "exit status 1"⟩

lemma eq_append_drop_of_isPrefixOf : ∀ (p l : List Char),
    List.isPrefixOf p l = true → l = p ++ List.drop p.length l
  | [], _, _ => rfl
  | _ :: _, [], h => by simp [List.isPrefixOf] at h
  | a :: as, b :: bs, h => by
    simp only [List.isPrefixOf, Bool.and_eq_true, beq_iff_eq] at h
    obtain ⟨hab, hrec⟩ := h
    have ih := eq_append_drop_of_isPrefixOf as bs hrec
    simp only [List.length_cons, List.drop_succ_cons, List.cons_append]
    rw [hab]
    exact congrArg _ ih

lemma splitOnce_join (sep : List Char) : ∀ (s a b : List Char),
    splitOnce sep s = some (a, b) → s = a ++ sep ++ b := by
  intro s
  induction s with
  | nil => intro a b h; simp [splitOnce] at h
  | cons c rest ih =>
    intro a b h
    cases hp : List.isPrefixOf sep (c :: rest) with
    | true =>
      rw [splitOnce, if_pos hp] at h
      injection h with h'
      injection h' with ha hb
      subst ha
      subst hb
      simpa using eq_append_drop_of_isPrefixOf sep (c :: rest) hp
    | false =>
      rw [splitOnce, if_neg (by simp [hp])] at h
      cases hr : splitOnce sep rest with
      | none => rw [hr] at h; cases h
      | some ab =>
        obtain ⟨a', b'⟩ := ab
        rw [hr] at h
        injection h with h'
        injection h' with ha hb
        subst ha
        subst hb
        have := ih a' b' hr
        simp [this]

/-- C1: for every one-character status code in the known set,
`statusFlagForChar` returns the enumeration value given by the fixed table
(space→unmodified, M→modified, A→added, D→deleted, R→renamed, C→copied,
U→unmerged/updated), and for every character outside that set it fails with
an error naming that character. -/
theorem statusFlagForChar_table :
    statusFlagForChar ' ' = Except.ok StatusFlag.unmodified ∧
    statusFlagForChar 'M' = Except.ok StatusFlag.modified ∧
    statusFlagForChar 'A' = Except.ok StatusFlag.added ∧
    statusFlagForChar 'D' = Except.ok StatusFlag.deleted ∧
    statusFlagForChar 'R' = Except.ok StatusFlag.renamed ∧
    statusFlagForChar 'C' = Except.ok StatusFlag.copied ∧
    statusFlagForChar 'U' = Except.ok StatusFlag.unmergedUpdated ∧
    ∀ c : Char, c ∉ [' ', 'M', 'A', 'D', 'R', 'C', 'U'] →
      statusFlagForChar c =
        Except.error ("Unknown status flag `" ++ String.singleton c ++ "`") := by
  refine ⟨rfl, rfl, rfl, rfl, rfl, rfl, rfl, ?_⟩
  intro c hc
  simp only [List.mem_cons, List.not_mem_nil, or_false, not_or] at hc
  obtain ⟨h1, h2, h3, h4, h5, h6, h7⟩ := hc
  simp [statusFlagForChar, h1, h2, h3, h4, h5, h6, h7]

theorem statusFlagForChar_table_witness :
    ('x' ∉ [' ', 'M', 'A', 'D', 'R', 'C', 'U']) ∧
    statusFlagForChar 'x' =
      Except.error ("Unknown status flag `" ++ String.singleton 'x' ++ "`") :=
  ⟨by decide, statusFlagForChar_table.2.2.2.2.2.2.2 'x' (by decide)⟩

/-- C10: the status parser never inspects the character at position 2 of a
line: two lines that differ only in the character at index 2 parse to
identical results, so the separator between the status columns and the path
need not be a space. -/
theorem parseStatusLine_ignores_third_column (c0 c1 x y : Char) (payload : List Char) :
    parseStatusLine (c0 :: c1 :: x :: payload) = parseStatusLine (c0 :: c1 :: y :: payload) := rfl

/-- C6: for every status line of length at least 4, the path payload
(position 3 onward) is split on the literal separator `" -> "` into at most
two parts; the first part is always the old path (the text before the first
occurrence of the separator, or the whole payload when the separator is
absent); a second part becomes the new path, otherwise the new path is
empty; and parsing `"R  old.txt -> new.txt"` yields oldPath `"old.txt"`,
newPath `"new.txt"`, indexStatus renamed. -/
theorem parseStatus_path_split :
    (∀ payload : List Char, (splitN2 arrowSep payload).length ≤ 2) ∧
    (∀ payload a b : List Char,
      splitN2 arrowSep payload = [a, b] → payload = a ++ arrowSep ++ b) ∧
    (∀ (c0 c1 c2 : Char) (payload : List Char) (f0 f1 : StatusFlag) (a b : List Char),
      statusFlagForChar c0 = Except.ok f0 → statusFlagForChar c1 = Except.ok f1 →
      splitN2 arrowSep payload = [a, b] →
      parseStatusLine (c0 :: c1 :: c2 :: payload) = Except.ok ⟨a, b, f0, f1⟩) ∧
    (∀ (c0 c1 c2 : Char) (payload : List Char) (f0 f1 : StatusFlag),
      payload ≠ [] →
      statusFlagForChar c0 = Except.ok f0 → statusFlagForChar c1 = Except.ok f1 →
      splitN2 arrowSep payload = [payload] →
      parseStatusLine (c0 :: c1 :: c2 :: payload) = Except.ok ⟨payload, [], f0, f1⟩) ∧
    parseStatus (str "R  old.txt -> new.txt") =
      Except.ok [⟨str "old.txt", str "new.txt", StatusFlag.renamed, StatusFlag.unmodified⟩] := by
  have hsplit : ∀ payload a b : List Char,
      splitN2 arrowSep payload = [a, b] → payload = a ++ arrowSep ++ b := by
    intro payload a b h
    rw [splitN2] at h
    cases hr : splitOnce arrowSep payload with
    | none => rw [hr] at h; injection h with h1 h2; cases h2
    | some ab =>
      obtain ⟨a', b'⟩ := ab
      rw [hr] at h
      injection h with h1 h2
      injection h2 with h2 h3
      subst h1
      subst h2
      exact splitOnce_join arrowSep payload _ _ hr
  refine ⟨?_, hsplit, ?_, ?_, rfl⟩
  · intro payload
    rw [splitN2]
    cases splitOnce arrowSep payload with
    | none => simp
    | some ab => simp
  · intro c0 c1 c2 payload f0 f1 a b h0 h1 hs
    have hpne : payload ≠ [] := by
      intro he
      subst he
      have := hsplit [] a b hs
      simp [arrowSep, str] at this
    have hplen : 0 < payload.length := List.length_pos.mpr hpne
    have hlen : ¬ (c0 :: c1 :: c2 :: payload).length < 4 := by
      simp only [List.length_cons]
      omega
    rw [parseStatusLine, if_neg hlen]
    simp [h0, h1, hs]
  · intro c0 c1 c2 payload f0 f1 hpne h0 h1 hs
    have hplen : 0 < payload.length := List.length_pos.mpr hpne
    have hlen : ¬ (c0 :: c1 :: c2 :: payload).length < 4 := by
      simp only [List.length_cons]
      omega
    rw [parseStatusLine, if_neg hlen]
    simp [h0, h1, hs]

theorem parseStatus_path_split_witness :
    splitN2 arrowSep (str "old.txt -> new.txt") = [str "old.txt", str "new.txt"] ∧
    parseStatusLine ('R' :: ' ' :: ' ' :: str "old.txt -> new.txt") =
      Except.ok ⟨str "old.txt", str "new.txt", StatusFlag.renamed, StatusFlag.unmodified⟩ ∧
    parseStatusLine ('M' :: ' ' :: ' ' :: str "f.go") =
      Except.ok ⟨str "f.go", [], StatusFlag.modified, StatusFlag.unmodified⟩ :=
  ⟨by decide,
   parseStatus_path_split.2.2.1 'R' ' ' ' ' (str "old.txt -> new.txt")
     StatusFlag.renamed StatusFlag.unmodified (str "old.txt") (str "new.txt") rfl rfl (by decide),
   parseStatus_path_split.2.2.2.1 'M' ' ' ' ' (str "f.go")
     StatusFlag.modified StatusFlag.unmodified (by decide) rfl rfl (by decide)⟩

lemma parseStatusLine_short (l : List Char) (h : l.length < 4) :
    parseStatusLine l = Except.error "Status line too short" := by
  rw [parseStatusLine, if_pos h]

lemma parseStatusLines_error_of_bad : ∀ ls : List (List Char),
    (∃ l ∈ ls, l ≠ [] ∧ (parseStatusLine l).isOk = false) →
    ∃ e, parseStatusLines ls = Except.error e := by
  intro ls
  induction ls with
  | nil => intro h; simp at h
  | cons l t ih =>
    intro h
    by_cases hl : l = []
    · subst hl
      rw [show parseStatusLines ([] :: t) = parseStatusLines t from by
        simp [parseStatusLines]]
      apply ih
      obtain ⟨l', hmem, hne, hbad⟩ := h
      rcases List.mem_cons.mp hmem with he | ht
      · exact absurd he hne
      · exact ⟨l', ht, hne, hbad⟩
    · simp only [parseStatusLines]
      rw [if_neg hl]
      cases hp : parseStatusLine l with
      | error e => exact ⟨e, rfl⟩
      | ok s =>
        obtain ⟨l', hmem, hne, hbad⟩ := h
        rcases List.mem_cons.mp hmem with he | ht
        · subst he
          rw [hp] at hbad
          simp [Except.isOk, Except.toBool] at hbad
        · obtain ⟨e, he⟩ := ih ⟨l', ht, hne, hbad⟩
          rw [he]
          exact ⟨e, rfl⟩

lemma parseStatusLines_short_after_ok :
    ∀ (pre : List (List Char)) (l : List Char) (rest : List (List Char)),
    (∀ l' ∈ pre, l' = [] ∨ (parseStatusLine l').isOk = true) →
    l ≠ [] → l.length < 4 →
    parseStatusLines (pre ++ l :: rest) = Except.error "Status line too short" := by
  intro pre
  induction pre with
  | nil =>
    intro l rest _ hne hlen
    simp only [List.nil_append, parseStatusLines]
    rw [if_neg hne, parseStatusLine_short l hlen]
  | cons p pre' ih =>
    intro l rest hwf hne hlen
    have hp := hwf p (List.mem_cons_self ..)
    have hpre' : ∀ l' ∈ pre', l' = [] ∨ (parseStatusLine l').isOk = true :=
      fun l' hl' => hwf l' (List.mem_cons_of_mem _ hl')
    simp only [List.cons_append, parseStatusLines]
    by_cases hpnil : p = []
    · rw [if_pos hpnil]
      exact ih l rest hpre' hne hlen
    · rw [if_neg hpnil]
      rcases hp with hpe | hpok
      · exact absurd hpe hpnil
      cases hpp : parseStatusLine p with
      | error e =>
        rw [hpp] at hpok
        simp [Except.isOk, Except.toBool] at hpok
      | ok s =>
        have hrec := ih l rest hpre' hne hlen
        simp only [List.append_eq]
        rw [hrec]

/-- C5 counterexample: the input `"X  foo\nab"` contains the non-empty line
`"ab"` of length 2 < 4, yet parsing fails with the unknown-status-flag error
of the earlier line, not with the "line too short" error. -/
theorem parseStatus_short_line_counterexample :
    (∃ l ∈ splitLines (str "X  foo\nab"), l ≠ [] ∧ l.length < 4) ∧
    parseStatus (str "X  foo\nab") =
      Except.error ("Unknown status flag `" ++ String.singleton 'X' ++ "`") ∧
    ("Unknown status flag `" ++ String.singleton 'X' ++ "`" : String) ≠
      "Status line too short" :=
  ⟨by decide, rfl, by decide⟩

/-- C5 amended: every input containing a non-empty line shorter than 4
characters fails to parse, with no sequence of entries returned; the error
is "Status line too short" whenever every earlier line is empty or
well-formed (an earlier malformed line reports its own error instead), and
in particular a lone short line yields that error. -/
theorem parseStatus_short_line_fails :
    (∀ output : List Char,
      (∃ l ∈ splitLines output, l ≠ [] ∧ l.length < 4) →
      ∃ e, parseStatus output = Except.error e) ∧
    (∀ (pre : List (List Char)) (l : List Char) (rest : List (List Char)),
      (∀ l' ∈ pre, l' = [] ∨ (parseStatusLine l').isOk = true) →
      l ≠ [] → l.length < 4 →
      parseStatusLines (pre ++ l :: rest) = Except.error "Status line too short") ∧
    parseStatus (str "ab") = Except.error "Status line too short" := by
  refine ⟨?_, parseStatusLines_short_after_ok, rfl⟩
  intro output h
  obtain ⟨l, hmem, hne, hlen⟩ := h
  apply parseStatusLines_error_of_bad
  refine ⟨l, hmem, hne, ?_⟩
  rw [parseStatusLine_short l hlen]
  rfl

theorem parseStatus_short_line_fails_witness :
    (∃ e, parseStatus (str "M  f\nab") = Except.error e) ∧
    parseStatusLines [str "M  foo", str "ab"] = Except.error "Status line too short" :=
  ⟨parseStatus_short_line_fails.1 (str "M  f\nab") (by decide),
   parseStatus_short_line_fails.2.1 [str "M  foo"] (str "ab") [] (by decide) (by decide)
     (by decide)⟩

lemma splitLines_ne_nil (s : List Char) : splitLines s ≠ [] := by
  cases s with
  | nil => simp [splitLines]
  | cons c rest =>
    rw [splitLines]
    by_cases hc : c = '\n'
    · simp [hc]
    · rw [if_neg hc]
      cases splitLines rest <;> simp

lemma splitLines_newline : ∀ s : List Char, splitLines (s ++ ['\n']) = splitLines s ++ [[]] := by
  intro s
  induction s with
  | nil => rfl
  | cons c rest ih =>
    by_cases hc : c = '\n'
    · subst hc
      simp only [List.cons_append]
      rw [splitLines, if_pos rfl, ih]
      rw [show splitLines ('\n' :: rest) = [] :: splitLines rest from by
        rw [splitLines, if_pos rfl]]
      simp
    · simp only [List.cons_append]
      rw [splitLines, if_neg hc, ih]
      rw [show splitLines (c :: rest) =
          (match splitLines rest with
           | [] => [[c]]
           | h :: t => (c :: h) :: t) from by rw [splitLines, if_neg hc]]
      cases hr : splitLines rest with
      | nil => exact absurd hr (splitLines_ne_nil rest)
      | cons h t => simp

lemma parseStatusLines_append_empty : ∀ ls : List (List Char),
    parseStatusLines (ls ++ [[]]) = parseStatusLines ls := by
  intro ls
  induction ls with
  | nil => rfl
  | cons l t ih =>
    simp only [List.cons_append, parseStatusLines]
    by_cases hl : l = []
    · rw [if_pos hl, if_pos hl]
      simpa using ih
    · rw [if_neg hl, if_neg hl]
      cases parseStatusLine l with
      | error e => rfl
      | ok s =>
        simp only [List.append_eq] at ih ⊢
        rw [ih]

lemma parseStatus_newline (s : List Char) :
    parseStatus (s ++ ['\n']) = parseStatus s := by
  rw [parseStatus, parseStatus, splitLines_newline, parseStatusLines_append_empty]

/-- C8: the status parser splits its input on newlines and skips empty
lines: parsing the empty string yields the empty sequence with no error,
appending any number of empty trailing lines leaves the parse result
unchanged, and a concrete multi-line output parses to one entry per
non-empty line. -/
theorem parseStatus_newlines :
    parseStatus (str "") = Except.ok [] ∧
    (∀ (output : List Char) (n : Nat),
      parseStatus (output ++ List.replicate n '\n') = parseStatus output) ∧
    parseStatus (str "M  a\nA  b\n\n") =
      Except.ok [⟨str "a", [], StatusFlag.modified, StatusFlag.unmodified⟩,
                 ⟨str "b", [], StatusFlag.added, StatusFlag.unmodified⟩] := by
  refine ⟨rfl, ?_, rfl⟩
  intro output n
  induction n generalizing output with
  | zero => simp
  | succ n ih =>
    rw [List.replicate_succ, show output ++ '\n' :: List.replicate n '\n' =
        (output ++ ['\n']) ++ List.replicate n '\n' from by simp,
      ih (output ++ ['\n']), parseStatus_newline]

lemma stateForOrder_unique_aux (fs : Stat) (r : Repo) :
    ∀ (entries : List (String × State)) (nm : String) (st : State),
    (entries.map Prod.fst).Nodup → (nm, st) ∈ entries →
    (∀ p ∈ entries, HasGitFile fs r p.1 = Except.ok (p.1 == nm)) →
    stateForOrder fs r entries = Except.ok st := by
  intro entries
  induction entries with
  | nil => intro nm st _ hmem _; simp at hmem
  | cons e t ih =>
    intro nm st hnd hmem hfs
    obtain ⟨f, s⟩ := e
    have hhead := hfs (f, s) (List.mem_cons_self ..)
    rw [List.map_cons, List.nodup_cons] at hnd
    cases hb : (f == nm) with
    | true =>
      have hf : f = nm := beq_iff_eq.mp hb
      rw [hb] at hhead
      simp only [stateForOrder, hhead]
      rcases List.mem_cons.mp hmem with he | ht
      · injection he with h1 h2
        rw [h2]
      · exfalso
        have hin : nm ∈ t.map Prod.fst := List.mem_map.mpr ⟨(nm, st), ht, rfl⟩
        exact hnd.1 (hf ▸ hin)
    | false =>
      have hf : f ≠ nm := by simpa using hb
      rw [hb] at hhead
      simp only [stateForOrder, hhead]
      rcases List.mem_cons.mp hmem with he | ht
      · injection he with h1 h2
        exact absurd h1.symm hf
      · exact ih nm st hnd.2 ht (fun p hp => hfs p (List.mem_cons_of_mem _ hp))

lemma stateForOrder_none_aux (fs : Stat) (r : Repo) :
    ∀ entries : List (String × State),
    (∀ p ∈ entries, HasGitFile fs r p.1 = Except.ok false) →
    stateForOrder fs r entries = Except.ok State.none := by
  intro entries
  induction entries with
  | nil => intro _; rfl
  | cons e t ih =>
    intro hfs
    obtain ⟨f, s⟩ := e
    simp only [stateForOrder, hfs (f, s) (List.mem_cons_self ..)]
    exact ih (fun p hp => hfs p (List.mem_cons_of_mem _ hp))

lemma stateForOrder_exists_aux (fs : Stat) (r : Repo) :
    ∀ entries : List (String × State),
    (∀ p ∈ entries, (HasGitFile fs r p.1).isOk = true) →
    (∃ p ∈ entries, HasGitFile fs r p.1 = Except.ok true) →
    ∃ p ∈ entries, HasGitFile fs r p.1 = Except.ok true ∧
      stateForOrder fs r entries = Except.ok p.2 := by
  intro entries
  induction entries with
  | nil => intro _ h2; simp at h2
  | cons e t ih =>
    intro h1 h2
    obtain ⟨f, s⟩ := e
    have hhead := h1 (f, s) (List.mem_cons_self ..)
    cases hres : HasGitFile fs r f with
    | error e' =>
      rw [hres] at hhead
      simp [Except.isOk, Except.toBool] at hhead
    | ok b =>
      cases b with
      | true =>
        refine ⟨(f, s), List.mem_cons_self .., hres, ?_⟩
        simp only [stateForOrder, hres]
      | false =>
        have h2' : ∃ p ∈ t, HasGitFile fs r p.1 = Except.ok true := by
          obtain ⟨p, hp, hptrue⟩ := h2
          rcases List.mem_cons.mp hp with he | ht
          · subst he
            rw [hres] at hptrue
            injection hptrue with hbad
            cases hbad
          · exact ⟨p, ht, hptrue⟩
        obtain ⟨p, hp, hptrue, hrun⟩ :=
          ih (fun p hp => h1 p (List.mem_cons_of_mem _ hp)) h2'
        refine ⟨p, List.mem_cons_of_mem _ hp, hptrue, ?_⟩
        simp only [stateForOrder, hres]
        exact hrun

/-- C4: if exactly one marker file in the fixed table exists under the
metadata directory then `State()` returns the state mapped to that marker,
for every iteration order of the `stateFiles` map; and if none of the
marker files exist, `State()` returns `State.none` with no error. -/
theorem state_single_marker_or_none :
    (∀ (fs : Stat) (r : Repo) (entries : List (String × State)) (nm : String) (st : State),
      entries.Perm stateFilesList → (nm, st) ∈ stateFilesList →
      (∀ p ∈ stateFilesList, HasGitFile fs r p.1 = Except.ok (p.1 == nm)) →
      stateForOrder fs r entries = Except.ok st) ∧
    (∀ (fs : Stat) (r : Repo) (entries : List (String × State)),
      entries.Perm stateFilesList →
      (∀ p ∈ stateFilesList, HasGitFile fs r p.1 = Except.ok false) →
      stateForOrder fs r entries = Except.ok State.none) := by
  constructor
  · intro fs r entries nm st hperm hmem hfs
    have hnodup : (stateFilesList.map Prod.fst).Nodup := by decide
    have hnd : (entries.map Prod.fst).Nodup := ((hperm.map Prod.fst).nodup_iff).mpr hnodup
    exact stateForOrder_unique_aux fs r entries nm st hnd (hperm.mem_iff.mpr hmem)
      (fun p hp => hfs p (hperm.mem_iff.mp hp))
  · intro fs r entries hperm hfs
    exact stateForOrder_none_aux fs r entries (fun p hp => hfs p (hperm.mem_iff.mp hp))

theorem state_single_marker_or_none_witness :
    stateForOrder fsOnlyMerge repoT stateFilesList = Except.ok State.merge ∧
    stateForOrder fsNoMarkers repoT stateFilesList = Except.ok State.none :=
  ⟨state_single_marker_or_none.1 fsOnlyMerge repoT stateFilesList "MERGE_HEAD" State.merge
     (List.Perm.refl _) (by decide) (by decide),
   state_single_marker_or_none.2 fsNoMarkers repoT stateFilesList (List.Perm.refl _) (by decide)⟩

/-- C2 counterexample: with both `MERGE_HEAD` and `CHERRY_PICK_HEAD`
present, two runs of the `State()` loop over two legitimate iteration
orders of the `stateFiles` map (the source-literal order and its reverse)
return different states, so `State()` is not a deterministic function of
the set of existing marker files. -/
theorem state_two_markers_counterexample :
    stateFilesList.reverse.Perm stateFilesList ∧
    stateForOrder fsMergeAndCherry repoT stateFilesList = Except.ok State.merge ∧
    stateForOrder fsMergeAndCherry repoT stateFilesList.reverse = Except.ok State.cherryPick ∧
    State.merge ≠ State.cherryPick :=
  ⟨List.reverse_perm _, rfl, rfl, by decide⟩

/-- C2 amended: when at least one marker exists and no existence check
errors, `state()` returns the state mapped to whichever existing marker the
(unspecified) map iteration order reaches first — always the state of some
existing marker, but not necessarily the same one across two runs with
different iteration orders. -/
theorem state_first_existing_marker :
    ∀ (fs : Stat) (r : Repo) (entries : List (String × State)),
    entries.Perm stateFilesList →
    (∀ p ∈ stateFilesList, (HasGitFile fs r p.1).isOk = true) →
    (∃ p ∈ stateFilesList, HasGitFile fs r p.1 = Except.ok true) →
    ∃ p ∈ stateFilesList, HasGitFile fs r p.1 = Except.ok true ∧
      stateForOrder fs r entries = Except.ok p.2 := by
  intro fs r entries hperm h1 h2
  have h2' : ∃ p ∈ entries, HasGitFile fs r p.1 = Except.ok true := by
    obtain ⟨p, hp, hptrue⟩ := h2
    exact ⟨p, hperm.mem_iff.mpr hp, hptrue⟩
  obtain ⟨p, hp, hptrue, hrun⟩ := stateForOrder_exists_aux fs r entries
    (fun p hp => h1 p (hperm.mem_iff.mp hp)) h2'
  exact ⟨p, hperm.mem_iff.mp hp, hptrue, hrun⟩

theorem state_first_existing_marker_witness :
    ∃ p ∈ stateFilesList, HasGitFile fsMergeAndCherry repoT p.1 = Except.ok true ∧
      stateForOrder fsMergeAndCherry repoT stateFilesList = Except.ok p.2 :=
  state_first_existing_marker fsMergeAndCherry repoT stateFilesList (List.Perm.refl _)
    (by decide) (by decide)

/-- C9: for every file name, the marker-file existence check `HasGitFile`
returns `false` with no error when `os.Stat` reports the file missing,
returns `true` when the file exists, and propagates any other filesystem
error to the caller. -/
theorem hasGitFile_results :
    ∀ (fs : Stat) (r : Repo) (name : String),
    (fs (gitFilePath r name) = StatResult.notExist → HasGitFile fs r name = Except.ok false) ∧
    (fs (gitFilePath r name) = StatResult.found → HasGitFile fs r name = Except.ok true) ∧
    (∀ e, fs (gitFilePath r name) = StatResult.statError e →
      HasGitFile fs r name = Except.error e) := by
  intro fs r name
  refine ⟨?_, ?_, ?_⟩
  · intro h
    rw [HasGitFile, h]
  · intro h
    rw [HasGitFile, h]
  · intro e h
    rw [HasGitFile, h]

theorem hasGitFile_results_witness :
    HasGitFile fsNoMarkers repoT "MERGE_HEAD" = Except.ok false ∧
    HasGitFile fsOnlyMerge repoT "MERGE_HEAD" = Except.ok true ∧
    HasGitFile fsStatFails repoT "MERGE_HEAD" = Except.error "permission denied" :=
  ⟨(hasGitFile_results fsNoMarkers repoT "MERGE_HEAD").1 rfl,
   (hasGitFile_results fsOnlyMerge repoT "MERGE_HEAD").2.1 (by decide),
   (hasGitFile_results fsStatFails repoT "MERGE_HEAD").2.2 "permission denied" rfl⟩

/-- C3: `CherryPick` returns success when the invocation succeeds; when the
invocation fails it consults the repository state: mid-cherry-pick yields
"not succeeded" with no error (and no diagnostic output), any other state
re-raises the original error, and a failure of the state query itself
re-raises the original error while writing the captured stderr to the
diagnostic stream. -/
theorem cherryPick_outcomes :
    ∀ (run : RunResult) (stateRes : Except String State),
    (run.err = Option.none → CherryPick run stateRes = ((true, Option.none), [])) ∧
    (∀ e, run.err = some e → stateRes = Except.ok State.cherryPick →
      CherryPick run stateRes = ((false, Option.none), [])) ∧
    (∀ e st, run.err = some e → stateRes = Except.ok st → st ≠ State.cherryPick →
      CherryPick run stateRes = ((false, some e), [])) ∧
    (∀ e se, run.err = some e → stateRes = Except.error se →
      CherryPick run stateRes = ((false, some e), [run.stderr])) := by
  intro run stateRes
  refine ⟨?_, ?_, ?_, ?_⟩
  · intro h
    simp [CherryPick, h]
  · intro e h hs
    simp [CherryPick, h, hs]
  · intro e st h hs hne
    simp [CherryPick, h, hs, hne]
  · intro e se h hs
    simp [CherryPick, h, hs]

theorem cherryPick_outcomes_witness :
    CherryPick runConflict (Except.ok State.cherryPick) = ((false, Option.none), []) ∧
    CherryPick runConflict (Except.error "state failed") =
      ((false, some "exit status 1"), [runConflict.stderr]) :=
  ⟨(cherryPick_outcomes runConflict (Except.ok State.cherryPick)).2.1
     "exit status 1" rfl rfl,
   (cherryPick_outcomes runConflict (Except.error "state failed")).2.2.2
     "exit status 1" "state failed" rfl rfl⟩

/-- C7: `Parents` returns the sequence obtained by splitting the raw-format
parent-hash line on whitespace: the line `"abc123 def456"` yields the
two-element sequence, an empty line (initial commit) yields the empty
sequence, and in general a line made of two non-white-space tokens around a
space yields exactly those two identifiers, in order. -/
theorem parents_whitespace_split :
    Parents ⟨str "abc123 def456", [], Option.none⟩ =
      Except.ok [str "abc123", str "def456"] ∧
    Parents ⟨[], [], Option.none⟩ = Except.ok [] ∧
    (∀ (a b : List Char) (run : RunResult),
      a ≠ [] → b ≠ [] →
      (∀ c ∈ a, unicodeIsSpace c = false) → (∀ c ∈ b, unicodeIsSpace c = false) →
      run.stdout = a ++ ' ' :: b → run.err = Option.none →
      Parents run = Except.ok [a, b]) := by
  refine ⟨rfl, rfl, ?_⟩
  have haux : ∀ (x acc rest : List Char),
      (∀ c ∈ x, unicodeIsSpace c = false) →
      fieldsAux acc (x ++ rest) = fieldsAux (x.reverse ++ acc) rest := by
    intro x
    induction x with
    | nil => intro acc rest _; simp
    | cons c x' ih =>
      intro acc rest hx
      have hc := hx c (List.mem_cons_self ..)
      rw [List.cons_append]
      rw [show fieldsAux acc (c :: (x' ++ rest)) = fieldsAux (c :: acc) (x' ++ rest) from by
        simp [fieldsAux, hc]]
      rw [ih (c :: acc) rest (fun d hd => hx d (List.mem_cons_of_mem _ hd))]
      simp
  have hspace : ∀ acc rest : List Char, acc ≠ [] →
      fieldsAux acc (' ' :: rest) = acc.reverse :: fieldsAux [] rest := by
    intro acc rest hacc
    have hsp : unicodeIsSpace ' ' = true := rfl
    simp [fieldsAux, hsp, hacc]
  have hlast : ∀ x : List Char, (∀ c ∈ x, unicodeIsSpace c = false) → x ≠ [] →
      fieldsAux [] x = [x] := by
    intro x hx hne
    have h0 := haux x [] [] hx
    simp only [List.append_nil] at h0
    rw [h0]
    simp [fieldsAux, hne]
  intro a b run ha hb hans hbns hout herr
  have hfields : fields (a ++ ' ' :: b) = [a, b] := by
    rw [show fields (a ++ ' ' :: b) = fieldsAux [] (a ++ ' ' :: b) from rfl]
    rw [haux a [] (' ' :: b) hans]
    rw [hspace (a.reverse ++ []) b (by simpa using ha)]
    rw [hlast b hbns hb]
    simp
  simp [Parents, herr, hout, hfields]

theorem parents_whitespace_split_witness :
    Parents ⟨str "aa bb", [], Option.none⟩ = Except.ok [str "aa", str "bb"] :=
  parents_whitespace_split.2.2 (str "aa") (str "bb") ⟨str "aa bb", [], Option.none⟩
    (by decide) (by decide) (by decide) (by decide) (by decide) rfl

end Gogit
